import Mathlib

/-!
Verification of the OpenBSD Blowfish password hashing module (`blowfish.py`).

Python 2 strings are byte sequences; we embed them as `List Char` (every
character of interest is ASCII) and raw byte strings as `List Nat` with each
byte below 256.  Fallible operations return `Except String _` or `Option _`.
The `eksblowfish` module imported by `blowfish.py` is not part of the sources
we verify, so the cipher is kept abstract (see `EksBlowfish` below).
-/

set_option maxRecDepth 10000

/-- `BCRYPT_VERSION = ('2', 'a')` — supported (major, minor) hash version. -/
def BCRYPT_VERSION : Char × Char := ('2', 'a')

/-- `BCRYPT_SALTLEN = 16` — expected raw salt length in bytes. -/
def BCRYPT_SALTLEN : Nat := 16

/-- `BCRYPT_MAGICTEXT = 'OrpheanBeholderScryDoubt'` — magic text to encipher. -/
def BCRYPT_MAGICTEXT : List Char := "OrpheanBeholderScryDoubt".toList

/-- `BCRYPT_BLOCKS = len(BCRYPT_MAGICTEXT) * 8 / 32` — ciphertext 32-bit words. -/
def BCRYPT_BLOCKS : Nat := BCRYPT_MAGICTEXT.length * 8 / 32

/-- `BCRYPT_MINROUNDS = 16` — minimum derived round count. -/
def BCRYPT_MINROUNDS : Nat := 16

/-- `B64_CHARS`: the standard base64 alphabet, built in the source as
uppercase ++ lowercase ++ digits ++ "+/". -/
def B64_CHARS : List Char :=
  "ABCDEFGHIJKLMNOPQRSTUVWXYZabcdefghijklmnopqrstuvwxyz0123456789+/".toList

/-- `B64_CHARS_BCRYPT`: bcrypt's alphabet, built as "./" ++ uppercase ++
lowercase ++ digits. -/
def B64_CHARS_BCRYPT : List Char :=
  "./ABCDEFGHIJKLMNOPQRSTUVWXYZabcdefghijklmnopqrstuvwxyz0123456789".toList

/-- Index of a character in a character list (first occurrence), used to model
the `string.maketrans` translation tables. -/
def charIndex (c : Char) : List Char → Option Nat
  | [] => none
  | d :: rest => if d = c then some 0 else (charIndex c rest).map (· + 1)

/-- `B64_TO_BCRYPT` as a function: a character at position `i` of `B64_CHARS`
is replaced by the character at position `i` of `B64_CHARS_BCRYPT`; characters
outside the table are left unchanged (exactly `str.translate` semantics). -/
def b64_to_bcrypt (c : Char) : Char :=
  match charIndex c B64_CHARS with
  | some i =>
    match B64_CHARS_BCRYPT.get? i with
    | some d => d
    | none => c
  | none => c

/-- `B64_FROM_BCRYPT` as a function: the inverse translation table. -/
def b64_from_bcrypt (c : Char) : Char :=
  match charIndex c B64_CHARS_BCRYPT with
  | some i =>
    match B64_CHARS.get? i with
    | some d => d
    | none => c
  | none => c

/-- Character of the standard base64 alphabet at a 6-bit index. -/
def b64chr (n : Nat) : Char :=
  match B64_CHARS.get? n with
  | some c => c
  | none => 'A'

/-- 6-bit value of a standard base64 alphabet character (`none` when the
character is not in the alphabet). -/
def b64val (c : Char) : Option Nat := charIndex c B64_CHARS

/-- Standard base64 encoding (`base64.b64encode`): each 3-byte group becomes 4
alphabet characters; a trailing 1- or 2-byte group is padded with `=`. -/
def b64encodeStd : List Nat → List Char
  | [] => []
  | [a] => [b64chr (a / 4), b64chr (a % 4 * 16), '=', '=']
  | [a, b] => [b64chr (a / 4), b64chr (a % 4 * 16 + b / 16), b64chr (b % 16 * 4), '=']
  | a :: b :: c :: rest =>
    b64chr (a / 4) :: b64chr (a % 4 * 16 + b / 16) :: b64chr (b % 16 * 4 + c / 64) ::
      b64chr (c % 64) :: b64encodeStd rest

/-- `binascii.a2b_base64`'s lookahead helper (`binascii_find_valid` with
`num = 1` folded into its one use): whether the next character that is either
a data character or a pad is a pad. -/
def padNext : List Char → Bool
  | [] => false
  | c :: rest =>
    if c = '=' then true
    else if (b64val c).isSome then false
    else padNext rest

/-- Python 2's `binascii.a2b_base64` state machine, which `base64.b64decode`
wraps: characters outside the alphabet are silently skipped; a pad at quad
position 0 or 1 is skipped, a pad at quad position 2 ends the input only when
the next data-or-pad character is another pad, and a pad at quad position 3
always ends the input; the second, third and fourth data character of each
quad emit one byte; leftover bits at the end of input raise the
"Incorrect padding" error (here: `none`). -/
def a2bBase64 : List Char → Nat → Nat → List Nat → Option (List Nat)
  | [], quad_pos, _, acc => if quad_pos = 0 then some acc else none
  | c :: rest, quad_pos, leftchar, acc =>
    if c = '=' then
      if quad_pos < 2 then a2bBase64 rest quad_pos leftchar acc
      else if quad_pos = 2 ∧ ¬ padNext rest then a2bBase64 rest quad_pos leftchar acc
      else some acc
    else
      match b64val c with
      | none => a2bBase64 rest quad_pos leftchar acc
      | some v =>
        if quad_pos = 0 then a2bBase64 rest 1 v acc
        else if quad_pos = 1 then
          a2bBase64 rest 2 ((leftchar * 64 + v) % 16) (acc ++ [(leftchar * 64 + v) / 16])
        else if quad_pos = 2 then
          a2bBase64 rest 3 ((leftchar * 64 + v) % 4) (acc ++ [(leftchar * 64 + v) / 4])
        else a2bBase64 rest 0 0 (acc ++ [leftchar * 64 + v])

/-- `base64.b64decode` with the standard alphabet: run the `a2b_base64`
machine from the initial state. -/
def b64decodeStd (data : List Char) : Option (List Nat) :=
  a2bBase64 data 0 0 []

/-- `_b64_encode(data)`: standard base64 encode, then
`enc.translate(B64_TO_BCRYPT, '=')` — delete `=` padding and substitute the
bcrypt alphabet. -/
def _b64_encode (data : List Nat) : List Char :=
  ((b64encodeStd data).filter (fun c => c != '=')).map b64_to_bcrypt

/-- The padding `_b64_decode` re-adds: `'=' * (4 - len % 4)` when
`len % 4 != 0`, else none. -/
def padFor (n : Nat) : List Char :=
  if n % 4 = 0 then [] else List.replicate (4 - n % 4) '='

/-- `_b64_decode(data)`: translate from the bcrypt alphabet back to the
standard one, re-add `=` padding to a multiple of 4, then standard-decode. -/
def _b64_decode (data : List Char) : Option (List Nat) :=
  b64decodeStd (data.map b64_from_bcrypt ++ padFor data.length)

/-- Python's `s.split('$')`: cut at every `'$'`, keeping empty pieces; the
result is always nonempty. -/
def splitDollar : List Char → List (List Char)
  | [] => [[]]
  | c :: rest =>
    if c = '$' then [] :: splitDollar rest
    else
      match splitDollar rest with
      | h :: t => (c :: h) :: t
      | [] => [[c]]

/-- Decimal digit value of a character. -/
def digCharVal (c : Char) : Option Nat :=
  if '0' ≤ c ∧ c ≤ '9' then some (c.toNat - 48) else none

/-- Accumulating decimal parser over a digit list. -/
def parseNatAux : List Char → Nat → Option Nat
  | [], acc => some acc
  | c :: rest, acc =>
    match digCharVal c with
    | some d => parseNatAux rest (acc * 10 + d)
    | none => none

/-- Python's `int(s)` on the strings hashpw can meet: an optional minus sign
followed by one or more decimal digits; anything else raises `ValueError`
(here: `none`). -/
def pyInt : List Char → Option Int
  | [] => none
  | '-' :: rest =>
    if rest = [] then none else (parseNatAux rest 0).map fun m => -(m : Int)
  | cs => (parseNatAux cs 0).map fun m => (m : Int)

/-- Python's `'{:02d}'.format(n)` for a nonnegative count: zero-pad to two
digits. -/
def zpad2 (n : Nat) : List Char :=
  if n < 10 then '0' :: Nat.toDigits 10 n else Nat.toDigits 10 n

/-- Python tuple comparison `(major, minor) > BCRYPT_VERSION`:
strict lexicographic order on the pair. -/
def verGT (p q : Char × Char) : Prop :=
  q.1 < p.1 ∨ (p.1 = q.1 ∧ q.2 < p.2)

instance (p q : Char × Char) : Decidable (verGT p q) := by
  unfold verGT; infer_instance

/-- Modelled from the spec: the `eksblowfish` module (class `EksBlowfish`)
imported by `blowfish.py` is not among the sources.  Per spec §4.1–§4.2 it
carries a mutable cipher state (P-array and S-boxes), an
`expandkey(saltOrZero, key, keyLen)` step mutating that state, and a pure
`encryptBlock` on two 32-bit words.  We model it as an interface over an
abstract state type: `expandkey st saltOrZero key keyLen` returns the new
state (the Python call sites pass `0` for "no salt", modelled as `none`), and
`cipher st l r` is `bf.cipher(l, r, bf.ENCRYPT)` (only the ENCRYPT direction
is ever used by `hashpw`). -/
structure EksBlowfish (σ : Type) where
  expandkey : σ → Option (List Nat) → List Nat → Nat → σ
  cipher : σ → Nat → Nat → Nat × Nat

/-- The key-schedule part of `hashpw` (lines 94–102): one initial
`expandkey(raw_salt, password, key_len)` and then, `rounds` times,
`expandkey(0, password, key_len)` followed by
`expandkey(0, raw_salt, BCRYPT_SALTLEN)`. -/
def bcrypt_setup {σ : Type} (bf : EksBlowfish σ) (init : σ)
    (password raw_salt : List Nat) (key_len rounds : Nat) : σ :=
  (List.range rounds).foldl
    (fun st _ =>
      bf.expandkey (bf.expandkey st none password key_len) none raw_salt BCRYPT_SALTLEN)
    (bf.expandkey init (some raw_salt) password key_len)

/-- One pass of the inner loop `for d in xrange(0, BCRYPT_BLOCKS, 2)`:
encrypt the 32-bit words pairwise. -/
def encryptPairs {σ : Type} (bf : EksBlowfish σ) (st : σ) : List Nat → List Nat
  | l :: r :: rest => (bf.cipher st l r).1 :: (bf.cipher st l r).2 :: encryptPairs bf st rest
  | other => other

/-- `struct.unpack('>IIIIII', s)`: big-endian 32-bit words from bytes. -/
def unpackBE32 : List Nat → List Nat
  | a :: b :: c :: d :: rest => (((a * 256 + b) * 256 + c) * 256 + d) :: unpackBE32 rest
  | _ => []

/-- `struct.pack('>IIIIII', *words)`: big-endian bytes from 32-bit words. -/
def packBE32 : List Nat → List Nat
  | [] => []
  | w :: rest =>
    w / 16777216 % 256 :: w / 65536 % 256 :: w / 256 % 256 :: w % 256 :: packBE32 rest

/-- Lines 104–117 of `hashpw` after the key schedule: encrypt the magic value
64 times pairwise, serialize, cut off the last byte, base64-encode, and
prepend the salt argument. -/
def bcrypt_hash {σ : Type} (bf : EksBlowfish σ) (st : σ) (salt : List Char) : List Char :=
  salt ++ _b64_encode (List.dropLast (packBE32
    ((List.range 64).foldl (fun ct _ => encryptPairs bf st ct)
      (unpackBE32 (BCRYPT_MAGICTEXT.map Char.toNat)))))

/-- `hashpw(password, salt)` (lines 58–117).  The salt text is split on `'$'`
into exactly four fields, the two-character version is unpacked, the version,
cost-range, derived-rounds and salt-length checks run in source order, the
salt field is base64-decoded, and the EksBlowfish schedule plus magic-text
encryption produce the final text.  Python exceptions become `.error` values
carrying the raised message. -/
def hashpw {σ : Type} (bf : EksBlowfish σ) (init : σ)
    (password : List Nat) (salt : List Char) : Except String (List Char) :=
  match splitDollar salt with
  | [_, hash_ver, log_rounds, b64salt] =>
    match hash_ver with
    | [major, minor] =>
      if verGT (major, minor) BCRYPT_VERSION then
        .error "Newer hash version than library version. OMG."
      else
        match pyInt log_rounds with
        | none => .error "invalid literal for int()"
        | some n =>
          if n > 31 ∨ n < 0 then .error "Number of rounds out of bounds."
          else
            let rounds := 1 <<< n.toNat
            if rounds < BCRYPT_MINROUNDS then .error "Minimum number of rounds is: 16"
            else if b64salt.length * 3 / 4 ≠ BCRYPT_SALTLEN then
              .error "Salt has invalid length."
            else
              match _b64_decode b64salt with
              | none => .error "TypeError: b64decode"
              | some raw_salt =>
                let key_len := password.length + (if 'a' ≤ minor then 1 else 0)
                .ok (bcrypt_hash bf (bcrypt_setup bf init password raw_salt key_len rounds) salt)
    | _ => .error "ValueError: unpack hash version"
  | _ => .error "ValueError: unpack salt fields"

/-- `_encode_salt(csalt, log_rounds)` (lines 120–138): length and cost checks,
then `'${maj}{min}${log_rounds:02d}${b64salt}'`. -/
def _encode_salt (csalt : List Nat) (log_rounds : Int) : Except String (List Char) :=
  if csalt.length ≠ BCRYPT_SALTLEN then .error "Invalid salt length"
  else if log_rounds < 4 ∨ 31 < log_rounds then .error "Invalid number of rounds"
  else
    .ok (('$' :: BCRYPT_VERSION.1 :: BCRYPT_VERSION.2 :: '$' :: []) ++
      zpad2 log_rounds.toNat ++ ['$'] ++ _b64_encode csalt)

/-- `gensalt(log_rounds=12)` (lines 48–55): clamp the cost into `[4, 31]` and
encode 16 random bytes.  `os.urandom(16)` is an external entropy source, so
the 16 random bytes are taken as the argument `rand`. -/
def gensalt (rand : List Nat) (log_rounds : Int) : Except String (List Char) :=
  _encode_salt rand (min (max log_rounds 4) 31)

/-- A trivial cipher instance (identity block cipher over a unit state), used
to evaluate `hashpw` at concrete inputs. -/
def unitBF : EksBlowfish Unit where
  expandkey := fun _ _ _ _ => ()
  cipher := fun _ l r => (l, r)

/-- A logging cipher instance: the state is the list of `expandkey` calls
(salt-or-none, key material, key length) in order, so theorems can speak about
the exact key-schedule call sequence `hashpw` performs. -/
def traceBF : EksBlowfish (List (Option (List Nat) × List Nat × Nat)) where
  expandkey := fun st s k kl => st ++ [(s, k, kl)]
  cipher := fun _ l r => (l, r)

/-- `bf.cipher` on a pair of 32-bit words. -/
def cipherPair {σ : Type} (bf : EksBlowfish σ) (st : σ) (p : Nat × Nat) : Nat × Nat :=
  bf.cipher st p.1 p.2

/-- Group a word list into consecutive pairs (64-bit blocks). -/
def pairUp : List Nat → List (Nat × Nat)
  | a :: b :: rest => (a, b) :: pairUp rest
  | _ => []

/-- Flatten a list of word pairs back into a word list. -/
def unpair : List (Nat × Nat) → List Nat
  | [] => []
  | p :: rest => p.1 :: p.2 :: unpair rest

/-- The digest as the spec words it (§4.4 steps 5–6): cut the magic plaintext
into big-endian 64-bit blocks, re-encrypt each block 64 times through the
cipher, serialize, truncate the final byte, and bcrypt-base64-encode. -/
def bcryptDigestSpec {σ : Type} (bf : EksBlowfish σ) (st : σ) : List Char :=
  _b64_encode (List.dropLast (packBE32 (unpair
    ((pairUp (unpackBE32 (BCRYPT_MAGICTEXT.map Char.toNat))).map
      fun p => (cipherPair bf st)^[64] p))))

/-- The `expandkey` call sequence of the cost-amplification loop as the spec
words it: `n` iterations, each passing the password first and then the 16 raw
salt bytes, both with no salt argument. -/
def loopTrace (password raw_salt : List Nat) (key_len : Nat) :
    Nat → List (Option (List Nat) × List Nat × Nat)
  | 0 => []
  | n + 1 =>
    (none, password, key_len) :: (none, raw_salt, BCRYPT_SALTLEN) ::
      loopTrace password raw_salt key_len n

theorem b64chr_mem (n : Nat) : b64chr n ∈ B64_CHARS := by
  unfold b64chr
  cases h : B64_CHARS.get? n with
  | none => decide
  | some c => exact List.get?_mem h

theorem b64_alphabet_facts :
    ∀ c ∈ B64_CHARS, c ≠ '=' ∧ b64_from_bcrypt (b64_to_bcrypt c) = c := by decide

theorem b64chr_ne_eq (n : Nat) : b64chr n ≠ '=' :=
  (b64_alphabet_facts _ (b64chr_mem n)).1

theorem b64chr_bne_eq (n : Nat) : (b64chr n != '=') = true := by
  simpa [bne_iff_ne] using b64chr_ne_eq n

theorem translate_chr (n : Nat) : b64_from_bcrypt (b64_to_bcrypt (b64chr n)) = b64chr n :=
  (b64_alphabet_facts _ (b64chr_mem n)).2

theorem b64val_b64chr : ∀ n, n < 64 → b64val (b64chr n) = some n := by decide

theorem bcrypt_alphabet_facts :
    ∀ c ∈ B64_CHARS_BCRYPT, (b64val (b64_from_bcrypt c)).isSome = true := by decide

theorem b64val_pad : b64val '=' = none := by decide

theorem a2b_nil (qp lc : Nat) (acc : List Nat) :
    a2bBase64 [] qp lc acc = if qp = 0 then some acc else none := rfl

theorem a2b_data0 (c : Char) (rest : List Char) (lc : Nat) (acc : List Nat) (v : Nat)
    (hv : b64val c = some v) :
    a2bBase64 (c :: rest) 0 lc acc = a2bBase64 rest 1 v acc := by
  have hc : ¬ (c = '=') := fun he => by rw [he, b64val_pad] at hv; cases hv
  simp [a2bBase64, hc, hv]

theorem a2b_data1 (c : Char) (rest : List Char) (lc : Nat) (acc : List Nat) (v : Nat)
    (hv : b64val c = some v) :
    a2bBase64 (c :: rest) 1 lc acc =
      a2bBase64 rest 2 ((lc * 64 + v) % 16) (acc ++ [(lc * 64 + v) / 16]) := by
  have hc : ¬ (c = '=') := fun he => by rw [he, b64val_pad] at hv; cases hv
  simp [a2bBase64, hc, hv]

theorem a2b_data2 (c : Char) (rest : List Char) (lc : Nat) (acc : List Nat) (v : Nat)
    (hv : b64val c = some v) :
    a2bBase64 (c :: rest) 2 lc acc =
      a2bBase64 rest 3 ((lc * 64 + v) % 4) (acc ++ [(lc * 64 + v) / 4]) := by
  have hc : ¬ (c = '=') := fun he => by rw [he, b64val_pad] at hv; cases hv
  simp [a2bBase64, hc, hv]

theorem a2b_data3 (c : Char) (rest : List Char) (lc : Nat) (acc : List Nat) (v : Nat)
    (hv : b64val c = some v) :
    a2bBase64 (c :: rest) 3 lc acc = a2bBase64 rest 0 0 (acc ++ [lc * 64 + v]) := by
  have hc : ¬ (c = '=') := fun he => by rw [he, b64val_pad] at hv; cases hv
  simp [a2bBase64, hc, hv]

theorem a2b_pad_lt2 (rest : List Char) (qp lc : Nat) (acc : List Nat) (hqp : qp < 2) :
    a2bBase64 ('=' :: rest) qp lc acc = a2bBase64 rest qp lc acc := by
  have h2 : ¬ (qp = 2) := by omega
  simp [a2bBase64, hqp]

theorem a2b_pad2_next (rest : List Char) (lc : Nat) (acc : List Nat)
    (h : padNext rest = true) :
    a2bBase64 ('=' :: rest) 2 lc acc = some acc := by
  simp [a2bBase64, h]

theorem a2b_pad3 (rest : List Char) (lc : Nat) (acc : List Nat) :
    a2bBase64 ('=' :: rest) 3 lc acc = some acc := by
  simp [a2bBase64]

theorem a2b_quad (c1 c2 c3 c4 : Char) (rest : List Char) (acc : List Nat)
    (v1 v2 v3 v4 : Nat) (h1 : b64val c1 = some v1) (h2 : b64val c2 = some v2)
    (h3 : b64val c3 = some v3) (h4 : b64val c4 = some v4) :
    a2bBase64 (c1 :: c2 :: c3 :: c4 :: rest) 0 0 acc =
      a2bBase64 rest 0 0 (acc ++
        [(v1 * 64 + v2) / 16,
         ((v1 * 64 + v2) % 16 * 64 + v3) / 4,
         ((v1 * 64 + v2) % 16 * 64 + v3) % 4 * 64 + v4]) := by
  rw [a2b_data0 _ _ _ _ _ h1, a2b_data1 _ _ _ _ _ h2, a2b_data2 _ _ _ _ _ h3,
    a2b_data3 _ _ _ _ _ h4]
  simp [List.append_assoc]

theorem b64encodeStd_stripped_length (bs : List Nat) :
    ((b64encodeStd bs).filter (fun c => c != '=')).length = (4 * bs.length + 2) / 3 := by
  induction bs using b64encodeStd.induct with
  | case1 => rfl
  | case2 a =>
    simp [b64encodeStd, List.filter_cons, b64chr_bne_eq]
  | case3 a b =>
    simp [b64encodeStd, List.filter_cons, b64chr_bne_eq]
  | case4 a b c rest ih =>
    simp only [b64encodeStd, List.filter_cons, b64chr_bne_eq, if_true, List.length_cons, ih]
    omega

theorem foldl_range_const {α : Type} (f : α → α) :
    ∀ (n : Nat) (x : α), (List.range n).foldl (fun a _ => f a) x = f^[n] x := by
  intro n
  induction n with
  | zero => intro x; rfl
  | succ n ih =>
    intro x
    rw [List.range_succ, List.foldl_append, ih, Function.iterate_succ_apply']
    rfl

theorem padFor_add4 (n : Nat) : padFor (4 + n) = padFor n := by
  unfold padFor
  have h : (4 + n) % 4 = n % 4 := by omega
  rw [h]

theorem b64_roundtrip_core :
    ∀ bs : List Nat, (∀ b ∈ bs, b < 256) → ∀ acc : List Nat,
      a2bBase64
        ((((b64encodeStd bs).filter (fun c => c != '=')).map
            (fun c => b64_from_bcrypt (b64_to_bcrypt c))) ++
          padFor ((b64encodeStd bs).filter (fun c => c != '=')).length) 0 0 acc
        = some (acc ++ bs) := by
  intro bs
  induction bs using b64encodeStd.induct with
  | case1 => intro _ acc; simp [b64encodeStd, padFor, a2bBase64]
  | case2 a =>
    intro h acc
    have ha : a < 256 := h a (by simp)
    simp only [b64encodeStd, List.filter_cons, b64chr_bne_eq, if_true]
    simp only [show ('=' != '=') = false from rfl, if_false, List.filter_nil]
    simp only [List.map_cons, List.map_nil, translate_chr, List.length_cons, List.length_nil]
    show a2bBase64 (b64chr (a / 4) :: b64chr (a % 4 * 16) :: '=' :: '=' :: []) 0 0 acc =
      some (acc ++ [a])
    rw [a2b_data0 _ _ _ _ _ (b64val_b64chr (a / 4) (by omega)),
      a2b_data1 _ _ _ _ _ (b64val_b64chr (a % 4 * 16) (by omega)),
      a2b_pad2_next _ _ _ (by simp [padNext])]
    have e : (a / 4 * 64 + a % 4 * 16) / 16 = a := by omega
    rw [e]
  | case3 a b =>
    intro h acc
    have ha : a < 256 := h a (by simp)
    have hb : b < 256 := h b (by simp)
    simp only [b64encodeStd, List.filter_cons, b64chr_bne_eq, if_true]
    simp only [show ('=' != '=') = false from rfl, if_false, List.filter_nil]
    simp only [List.map_cons, List.map_nil, translate_chr, List.length_cons, List.length_nil]
    show a2bBase64 (b64chr (a / 4) :: b64chr (a % 4 * 16 + b / 16) ::
        b64chr (b % 16 * 4) :: '=' :: []) 0 0 acc = some (acc ++ [a, b])
    rw [a2b_data0 _ _ _ _ _ (b64val_b64chr (a / 4) (by omega)),
      a2b_data1 _ _ _ _ _ (b64val_b64chr (a % 4 * 16 + b / 16) (by omega)),
      a2b_data2 _ _ _ _ _ (b64val_b64chr (b % 16 * 4) (by omega)),
      a2b_pad3]
    have e1 : (a / 4 * 64 + (a % 4 * 16 + b / 16)) / 16 = a := by omega
    have e2 : ((a / 4 * 64 + (a % 4 * 16 + b / 16)) % 16 * 64 + b % 16 * 4) / 4 = b := by
      omega
    rw [e1, e2]
    simp
  | case4 a b c rest ih =>
    intro h acc
    have ha : a < 256 := h a (by simp)
    have hb : b < 256 := h b (by simp)
    have hc : c < 256 := h c (by simp)
    have hrest : ∀ x ∈ rest, x < 256 := fun x hx => h x (by simp [hx])
    simp only [b64encodeStd, List.filter_cons, b64chr_bne_eq, if_true]
    simp only [List.map_cons, translate_chr, List.length_cons]
    have hlen : ∀ L : Nat, L + 1 + 1 + 1 + 1 = 4 + L := by omega
    rw [hlen, padFor_add4]
    simp only [List.cons_append]
    rw [a2b_quad _ _ _ _ _ _ _ _ _ _ (b64val_b64chr (a / 4) (by omega))
      (b64val_b64chr (a % 4 * 16 + b / 16) (by omega))
      (b64val_b64chr (b % 16 * 4 + c / 64) (by omega))
      (b64val_b64chr (c % 64) (by omega))]
    rw [ih hrest]
    have e1 : (a / 4 * 64 + (a % 4 * 16 + b / 16)) / 16 = a := by omega
    have e2 : ((a / 4 * 64 + (a % 4 * 16 + b / 16)) % 16 * 64 +
        (b % 16 * 4 + c / 64)) / 4 = b := by omega
    have e3 : ((a / 4 * 64 + (a % 4 * 16 + b / 16)) % 16 * 64 +
        (b % 16 * 4 + c / 64)) % 4 * 64 + c % 64 = c := by omega
    rw [e1, e2, e3]
    simp

theorem b64_roundtrip (bs : List Nat) (h : ∀ b ∈ bs, b < 256) :
    _b64_decode (_b64_encode bs) = some bs := by
  unfold _b64_decode _b64_encode b64decodeStd
  rw [List.map_map, List.length_map]
  simpa using b64_roundtrip_core bs h []

theorem a2b_valid_aux :
    ∀ (fuel : Nat) (cs : List Char), cs.length ≤ fuel →
      (∀ c ∈ cs, (b64val c).isSome = true) → cs.length % 4 ≠ 1 →
      ∀ acc : List Nat,
        ∃ r, a2bBase64 (cs ++ padFor cs.length) 0 0 acc = some (acc ++ r) ∧
          r.length = cs.length * 3 / 4 := by
  intro fuel
  induction fuel with
  | zero =>
    intro cs hle _ _ acc
    have : cs = [] := List.eq_nil_of_length_eq_zero (Nat.le_zero.mp hle)
    subst this
    exact ⟨[], by simp [padFor, a2bBase64], rfl⟩
  | succ m ih =>
    intro cs hle hval hmod acc
    match cs with
    | [] => exact ⟨[], by simp [padFor, a2bBase64], rfl⟩
    | [c1] => simp at hmod
    | [c1, c2] =>
      obtain ⟨v1, hv1⟩ := Option.isSome_iff_exists.mp (hval c1 (by simp))
      obtain ⟨v2, hv2⟩ := Option.isSome_iff_exists.mp (hval c2 (by simp))
      refine ⟨[(v1 * 64 + v2) / 16], ?_, by simp⟩
      show a2bBase64 (c1 :: c2 :: '=' :: '=' :: []) 0 0 acc = _
      rw [a2b_data0 _ _ _ _ _ hv1, a2b_data1 _ _ _ _ _ hv2,
        a2b_pad2_next _ _ _ (by simp [padNext])]
    | [c1, c2, c3] =>
      obtain ⟨v1, hv1⟩ := Option.isSome_iff_exists.mp (hval c1 (by simp))
      obtain ⟨v2, hv2⟩ := Option.isSome_iff_exists.mp (hval c2 (by simp))
      obtain ⟨v3, hv3⟩ := Option.isSome_iff_exists.mp (hval c3 (by simp))
      refine ⟨[(v1 * 64 + v2) / 16, ((v1 * 64 + v2) % 16 * 64 + v3) / 4], ?_, by simp⟩
      show a2bBase64 (c1 :: c2 :: c3 :: '=' :: []) 0 0 acc = _
      rw [a2b_data0 _ _ _ _ _ hv1, a2b_data1 _ _ _ _ _ hv2, a2b_data2 _ _ _ _ _ hv3,
        a2b_pad3]
      simp
    | c1 :: c2 :: c3 :: c4 :: rest =>
      obtain ⟨v1, hv1⟩ := Option.isSome_iff_exists.mp (hval c1 (by simp))
      obtain ⟨v2, hv2⟩ := Option.isSome_iff_exists.mp (hval c2 (by simp))
      obtain ⟨v3, hv3⟩ := Option.isSome_iff_exists.mp (hval c3 (by simp))
      obtain ⟨v4, hv4⟩ := Option.isSome_iff_exists.mp (hval c4 (by simp))
      have hrest : ∀ c ∈ rest, (b64val c).isSome = true := fun c hc =>
        hval c (by simp [hc])
      have hlen4 : rest.length ≤ m := by simp at hle; omega
      have hmod' : rest.length % 4 ≠ 1 := by simp at hmod ⊢; omega
      obtain ⟨r, hr, hrl⟩ := ih rest hlen4 hrest hmod'
        (acc ++ [(v1 * 64 + v2) / 16, ((v1 * 64 + v2) % 16 * 64 + v3) / 4,
          ((v1 * 64 + v2) % 16 * 64 + v3) % 4 * 64 + v4])
      refine ⟨(v1 * 64 + v2) / 16 :: ((v1 * 64 + v2) % 16 * 64 + v3) / 4 ::
        (((v1 * 64 + v2) % 16 * 64 + v3) % 4 * 64 + v4) :: r, ?_, ?_⟩
      · have hstep : (c1 :: c2 :: c3 :: c4 :: rest).length = 4 + rest.length := by
          simp; omega
        rw [hstep, padFor_add4]
        simp only [List.cons_append]
        rw [a2b_quad _ _ _ _ _ _ _ _ _ _ hv1 hv2 hv3 hv4, hr]
        simp [List.append_assoc]
      · simp at hrl ⊢
        omega

theorem a2b_mod1_aux :
    ∀ (fuel : Nat) (cs : List Char), cs.length ≤ fuel →
      (∀ c ∈ cs, (b64val c).isSome = true) → cs.length % 4 = 1 →
      ∀ acc : List Nat, a2bBase64 (cs ++ padFor cs.length) 0 0 acc = none := by
  intro fuel
  induction fuel with
  | zero =>
    intro cs hle _ hmod acc
    have : cs = [] := List.eq_nil_of_length_eq_zero (Nat.le_zero.mp hle)
    subst this
    simp at hmod
  | succ m ih =>
    intro cs hle hval hmod acc
    match cs with
    | [] => simp at hmod
    | [c1] =>
      obtain ⟨v1, hv1⟩ := Option.isSome_iff_exists.mp (hval c1 (by simp))
      show a2bBase64 (c1 :: '=' :: '=' :: '=' :: []) 0 0 acc = none
      rw [a2b_data0 _ _ _ _ _ hv1, a2b_pad_lt2 _ _ _ _ (by omega),
        a2b_pad_lt2 _ _ _ _ (by omega), a2b_pad_lt2 _ _ _ _ (by omega)]
      rfl
    | [c1, c2] => simp at hmod
    | [c1, c2, c3] => simp at hmod
    | c1 :: c2 :: c3 :: c4 :: rest =>
      obtain ⟨v1, hv1⟩ := Option.isSome_iff_exists.mp (hval c1 (by simp))
      obtain ⟨v2, hv2⟩ := Option.isSome_iff_exists.mp (hval c2 (by simp))
      obtain ⟨v3, hv3⟩ := Option.isSome_iff_exists.mp (hval c3 (by simp))
      obtain ⟨v4, hv4⟩ := Option.isSome_iff_exists.mp (hval c4 (by simp))
      have hrest : ∀ c ∈ rest, (b64val c).isSome = true := fun c hc =>
        hval c (by simp [hc])
      have hlen4 : rest.length ≤ m := by simp at hle; omega
      have hmod' : rest.length % 4 = 1 := by simp at hmod ⊢; omega
      have hstep : (c1 :: c2 :: c3 :: c4 :: rest).length = 4 + rest.length := by
        simp; omega
      rw [hstep, padFor_add4]
      simp only [List.cons_append]
      rw [a2b_quad _ _ _ _ _ _ _ _ _ _ hv1 hv2 hv3 hv4]
      exact ih rest hlen4 hrest hmod' _

theorem b64decodeStd_valid :
    ∀ (fuel : Nat) (cs : List Char), cs.length ≤ fuel →
      (∀ c ∈ cs, (b64val c).isSome = true) → cs.length % 4 ≠ 1 →
      ∃ r, b64decodeStd (cs ++ padFor cs.length) = some r ∧
        r.length = cs.length * 3 / 4 := by
  intro fuel cs hle hval hmod
  obtain ⟨r, hr, hrl⟩ := a2b_valid_aux fuel cs hle hval hmod []
  exact ⟨r, by simpa [b64decodeStd] using hr, hrl⟩

theorem b64decodeStd_mod1 :
    ∀ (fuel : Nat) (cs : List Char), cs.length ≤ fuel →
      (∀ c ∈ cs, (b64val c).isSome = true) → cs.length % 4 = 1 →
      b64decodeStd (cs ++ padFor cs.length) = none := by
  intro fuel cs hle hval hmod
  have := a2b_mod1_aux fuel cs hle hval hmod []
  simpa [b64decodeStd] using this

theorem b64_decode_bcrypt_16 (bs : List Char)
    (hval : ∀ c ∈ bs, c ∈ B64_CHARS_BCRYPT) :
    (∃ raw, _b64_decode bs = some raw ∧ raw.length = 16) ↔ bs.length = 22 := by
  unfold _b64_decode
  have hval' : ∀ c ∈ bs.map b64_from_bcrypt, (b64val c).isSome = true := by
    intro c hc
    obtain ⟨d, hd, rfl⟩ := List.mem_map.mp hc
    exact bcrypt_alphabet_facts d (hval d hd)
  have hlenm : (bs.map b64_from_bcrypt).length = bs.length := List.length_map bs b64_from_bcrypt
  constructor
  · rintro ⟨raw, hraw, hr16⟩
    by_cases hmod : bs.length % 4 = 1
    · have := b64decodeStd_mod1 (bs.map b64_from_bcrypt).length _ le_rfl hval'
        (by rw [hlenm]; exact hmod)
      rw [hlenm] at this
      rw [this] at hraw
      cases hraw
    · obtain ⟨r, hr, hrl⟩ := b64decodeStd_valid (bs.map b64_from_bcrypt).length _ le_rfl hval'
        (by rw [hlenm]; exact hmod)
      rw [hlenm] at hr hrl
      rw [hr] at hraw
      cases hraw
      omega
  · intro h22
    obtain ⟨r, hr, hrl⟩ := b64decodeStd_valid (bs.map b64_from_bcrypt).length _ le_rfl hval'
      (by rw [hlenm, h22]; omega)
    rw [hlenm] at hr hrl
    exact ⟨r, hr, by omega⟩

theorem splitDollar_ne_nil : ∀ cs : List Char, splitDollar cs ≠ [] := by
  intro cs
  induction cs with
  | nil => simp [splitDollar]
  | cons c rest ih =>
    unfold splitDollar
    by_cases hc : c = '$'
    · simp [hc]
    · simp only [if_neg hc]
      cases h : splitDollar rest with
      | nil => simp
      | cons x t => simp

theorem splitDollar_cons_dollar (cs : List Char) :
    splitDollar ('$' :: cs) = [] :: splitDollar cs := by
  simp [splitDollar]

theorem splitDollar_no_dollar_append :
    ∀ (xs ys : List Char), (∀ c ∈ xs, c ≠ '$') →
      splitDollar (xs ++ '$' :: ys) = xs :: splitDollar ys := by
  intro xs
  induction xs with
  | nil => intro ys _; simp [splitDollar]
  | cons x xs ih =>
    intro ys h
    have hx : x ≠ '$' := h x (by simp)
    have hxs : ∀ c ∈ xs, c ≠ '$' := fun c hc => h c (by simp [hc])
    rw [List.cons_append]
    simp only [splitDollar]
    rw [if_neg hx, ih ys hxs]

theorem splitDollar_no_dollar :
    ∀ xs : List Char, (∀ c ∈ xs, c ≠ '$') → splitDollar xs = [xs] := by
  intro xs
  induction xs with
  | nil => intro _; rfl
  | cons x xs ih =>
    intro h
    have hx : x ≠ '$' := h x (by simp)
    have hxs : ∀ c ∈ xs, c ≠ '$' := fun c hc => h c (by simp [hc])
    simp only [splitDollar]
    rw [if_neg hx, ih hxs]

theorem zpad2_facts (m : Int) (h4 : 4 ≤ m) (h31 : m ≤ 31) :
    (∀ c ∈ zpad2 m.toNat, c ≠ '$') ∧ pyInt (zpad2 m.toNat) = some m ∧
      (zpad2 m.toNat).length = 2 := by
  interval_cases m <;> refine ⟨by decide, by decide, by decide⟩

theorem packBE32_length (ws : List Nat) : (packBE32 ws).length = 4 * ws.length := by
  induction ws with
  | nil => rfl
  | cons w rest ih => simp [packBE32, ih]; omega

theorem b64_encode_length (bs : List Nat) :
    (_b64_encode bs).length = (4 * bs.length + 2) / 3 := by
  unfold _b64_encode
  rw [List.length_map]
  exact b64encodeStd_stripped_length bs

theorem b64encodeStd_chars :
    ∀ (bs : List Nat) (c : Char), c ∈ b64encodeStd bs → c ∈ B64_CHARS ∨ c = '=' := by
  intro bs
  induction bs using b64encodeStd.induct with
  | case1 => intro c hc; cases hc
  | case2 a =>
    intro c hc
    simp only [b64encodeStd, List.mem_cons, List.not_mem_nil, or_false] at hc
    rcases hc with rfl | rfl | rfl | rfl
    all_goals first
      | exact Or.inl (b64chr_mem _)
      | exact Or.inr rfl
  | case3 a b =>
    intro c hc
    simp only [b64encodeStd, List.mem_cons, List.not_mem_nil, or_false] at hc
    rcases hc with rfl | rfl | rfl | rfl
    all_goals first
      | exact Or.inl (b64chr_mem _)
      | exact Or.inr rfl
  | case4 a b d rest ih =>
    intro c hc
    simp only [b64encodeStd, List.mem_cons] at hc
    rcases hc with rfl | rfl | rfl | rfl | h
    · exact Or.inl (b64chr_mem _)
    · exact Or.inl (b64chr_mem _)
    · exact Or.inl (b64chr_mem _)
    · exact Or.inl (b64chr_mem _)
    · exact ih c h

theorem encode_chars_mem (bs : List Nat) (c : Char) (hc : c ∈ _b64_encode bs) :
    c ∈ B64_CHARS_BCRYPT := by
  obtain ⟨d, hd, rfl⟩ := List.mem_map.mp hc
  have hne : (d != '=') = true := (List.mem_filter.mp hd).2
  have hd' : d ∈ b64encodeStd bs := List.mem_of_mem_filter hd
  have hmem : d ∈ B64_CHARS := by
    rcases b64encodeStd_chars bs d hd' with h | h
    · exact h
    · rw [h] at hne; simp at hne
  have hall : ∀ e ∈ B64_CHARS, b64_to_bcrypt e ∈ B64_CHARS_BCRYPT := by decide
  exact hall d hmem

theorem encode_no_dollar (bs : List Nat) : ∀ c ∈ _b64_encode bs, c ≠ '$' := by
  intro c hc
  have hmem := encode_chars_mem bs c hc
  have hall : ∀ e ∈ B64_CHARS_BCRYPT, e ≠ '$' := by decide
  exact hall c hmem

theorem iterate_encryptPairs_six {σ : Type} (bf : EksBlowfish σ) (st : σ) :
    ∀ (n : Nat) (a b c d e f : Nat),
      (fun ct => encryptPairs bf st ct)^[n] [a, b, c, d, e, f] =
        [((cipherPair bf st)^[n] (a, b)).1, ((cipherPair bf st)^[n] (a, b)).2,
         ((cipherPair bf st)^[n] (c, d)).1, ((cipherPair bf st)^[n] (c, d)).2,
         ((cipherPair bf st)^[n] (e, f)).1, ((cipherPair bf st)^[n] (e, f)).2] := by
  intro n
  induction n with
  | zero => intro a b c d e f; rfl
  | succ n ih =>
    intro a b c d e f
    rw [Function.iterate_succ_apply, Function.iterate_succ_apply,
      Function.iterate_succ_apply, Function.iterate_succ_apply]
    have hstep : encryptPairs bf st [a, b, c, d, e, f] =
        [(bf.cipher st a b).1, (bf.cipher st a b).2, (bf.cipher st c d).1,
         (bf.cipher st c d).2, (bf.cipher st e f).1, (bf.cipher st e f).2] := rfl
    show (fun ct => encryptPairs bf st ct)^[n] (encryptPairs bf st [a, b, c, d, e, f]) = _
    rw [hstep, ih]
    simp [cipherPair]

theorem bcrypt_setup_trace_aux (password raw_salt : List Nat) (key_len : Nat) :
    ∀ (n : Nat) (st : List (Option (List Nat) × List Nat × Nat)),
      (fun s => traceBF.expandkey (traceBF.expandkey s none password key_len)
        none raw_salt BCRYPT_SALTLEN)^[n] st = st ++ loopTrace password raw_salt key_len n := by
  intro n
  induction n with
  | zero => intro st; simp [loopTrace]
  | succ n ih =>
    intro st
    rw [Function.iterate_succ_apply, ih]
    simp [traceBF, loopTrace]

theorem hashpw_valid_eq {σ : Type} (bf : EksBlowfish σ) (init : σ) (password : List Nat)
    (salt f0 lr bs : List Char) (major minor : Char) (n : Int) (raw : List Nat)
    (hsplit : splitDollar salt = [f0, [major, minor], lr, bs])
    (hver : ¬ verGT (major, minor) BCRYPT_VERSION)
    (hint : pyInt lr = some n) (h0 : 0 ≤ n) (h31 : n ≤ 31)
    (hmin : BCRYPT_MINROUNDS ≤ 1 <<< n.toNat)
    (hlen : bs.length * 3 / 4 = BCRYPT_SALTLEN)
    (hdec : _b64_decode bs = some raw) :
    hashpw bf init password salt =
      .ok (bcrypt_hash bf (bcrypt_setup bf init password raw
        (password.length + if 'a' ≤ minor then 1 else 0) (1 <<< n.toNat)) salt) := by
  have hc1 : ¬ (n > 31 ∨ n < 0) := by omega
  have hc2 : ¬ (1 <<< n.toNat < BCRYPT_MINROUNDS) := by omega
  have hc3 : ¬ (bs.length * 3 / 4 ≠ BCRYPT_SALTLEN) := by omega
  simp only [hashpw, hsplit, hint, hdec, if_neg hver, if_neg hc1, if_neg hc2, if_neg hc3]

/-- Claim C8: for every byte string of length 0 through 64, decoding the
bcrypt-base64 encoding returns the original bytes:
`_b64_decode(_b64_encode(b)) == b`. -/
theorem c8_b64_roundtrip (bs : List Nat) (hlen : bs.length ≤ 64)
    (hbytes : ∀ b ∈ bs, b < 256) :
    _b64_decode (_b64_encode bs) = some bs :=
  b64_roundtrip bs hbytes

theorem c8_witness :
    ([0, 255, 77].length ≤ 64 ∧ ∀ b ∈ ([0, 255, 77] : List Nat), b < 256) ∧
      _b64_decode (_b64_encode [0, 255, 77]) = some [0, 255, 77] :=
  ⟨⟨by decide, by decide⟩, c8_b64_roundtrip [0, 255, 77] (by decide) (by decide)⟩

/-- Claim C7: for any 16 raw bytes and any cost in [4, 31], parsing the text
produced by the salt encoder reproduces the original salt: splitting
`_encode_salt(raw, cost)` on `'$'` yields version "2a", a cost field that
parses back to `cost`, and a 22-character salt field that decodes back to the
original 16 raw bytes. -/
theorem c7_salt_roundtrip (raw : List Nat) (c : Int)
    (hlen : raw.length = 16) (hbytes : ∀ b ∈ raw, b < 256)
    (hc4 : 4 ≤ c) (hc31 : c ≤ 31) :
    ∃ s, _encode_salt raw c = .ok s ∧
      splitDollar s = [[], ['2', 'a'], zpad2 c.toNat, _b64_encode raw] ∧
      pyInt (zpad2 c.toNat) = some c ∧
      (_b64_encode raw).length = 22 ∧
      _b64_decode (_b64_encode raw) = some raw := by
  obtain ⟨hzd, hzp, hzl⟩ := zpad2_facts c hc4 hc31
  have hBS : BCRYPT_SALTLEN = 16 := rfl
  have hne1 : ¬ (raw.length ≠ BCRYPT_SALTLEN) := by omega
  have hne2 : ¬ (c < 4 ∨ 31 < c) := by omega
  refine ⟨('$' :: BCRYPT_VERSION.1 :: BCRYPT_VERSION.2 :: '$' :: []) ++
    zpad2 c.toNat ++ ['$'] ++ _b64_encode raw, ?_, ?_, hzp, ?_, b64_roundtrip raw hbytes⟩
  · simp only [_encode_salt, if_neg hne1, if_neg hne2]
  · have hrw : ('$' :: BCRYPT_VERSION.1 :: BCRYPT_VERSION.2 :: '$' :: []) ++
        zpad2 c.toNat ++ ['$'] ++ _b64_encode raw =
        '$' :: (['2', 'a'] ++ '$' :: (zpad2 c.toNat ++ '$' :: _b64_encode raw)) := by
      simp [BCRYPT_VERSION]
    rw [hrw, splitDollar_cons_dollar,
      splitDollar_no_dollar_append ['2', 'a'] _ (by decide),
      splitDollar_no_dollar_append (zpad2 c.toNat) _ hzd,
      splitDollar_no_dollar (_b64_encode raw) (encode_no_dollar raw)]
  · rw [b64_encode_length, hlen]

theorem c7_witness :
    ((List.replicate 16 0).length = 16 ∧ (4 : Int) ≤ 5 ∧ (5 : Int) ≤ 31) ∧
      ∃ s, _encode_salt (List.replicate 16 0) 5 = .ok s ∧
        splitDollar s = [[], ['2', 'a'], zpad2 (5 : Int).toNat,
          _b64_encode (List.replicate 16 0)] ∧
        pyInt (zpad2 (5 : Int).toNat) = some 5 ∧
        (_b64_encode (List.replicate 16 0)).length = 22 ∧
        _b64_decode (_b64_encode (List.replicate 16 0)) = some (List.replicate 16 0) :=
  ⟨⟨by decide, by decide, by decide⟩,
    c7_salt_roundtrip (List.replicate 16 0) 5 (by decide) (by decide) (by decide) (by decide)⟩

/-- Claim C9: for every integer `log_rounds`, `gensalt` clamps the cost into
[4, 31] and returns `"$2a$"` followed by the clamped cost zero-padded to two
decimal digits, `'$'`, and the 22-character bcrypt-base64 encoding of the 16
random bytes; the cost field always equals the clamped input cost. -/
theorem c9_gensalt_format (rand : List Nat) (log_rounds : Int)
    (hlen : rand.length = 16) :
    ∃ s, gensalt rand log_rounds = .ok s ∧
      s = ['$', '2', 'a', '$'] ++ zpad2 (min (max log_rounds 4) 31).toNat ++ ['$'] ++
        _b64_encode rand ∧
      4 ≤ min (max log_rounds 4) 31 ∧ min (max log_rounds 4) 31 ≤ 31 ∧
      (zpad2 (min (max log_rounds 4) 31).toNat).length = 2 ∧
      pyInt (zpad2 (min (max log_rounds 4) 31).toNat) = some (min (max log_rounds 4) 31) ∧
      (_b64_encode rand).length = 22 := by
  have h4 : 4 ≤ min (max log_rounds 4) 31 :=
    le_min (le_max_right log_rounds 4) (by omega)
  have h31 : min (max log_rounds 4) 31 ≤ 31 := min_le_right _ _
  obtain ⟨hzd, hzp, hzl⟩ := zpad2_facts _ h4 h31
  have hBS : BCRYPT_SALTLEN = 16 := rfl
  have hne1 : ¬ (rand.length ≠ BCRYPT_SALTLEN) := by omega
  have hne2 : ¬ (min (max log_rounds 4) 31 < 4 ∨ 31 < min (max log_rounds 4) 31) := by omega
  refine ⟨('$' :: BCRYPT_VERSION.1 :: BCRYPT_VERSION.2 :: '$' :: []) ++
    zpad2 (min (max log_rounds 4) 31).toNat ++ ['$'] ++ _b64_encode rand,
    ?_, ?_, h4, h31, hzl, hzp, ?_⟩
  · simp only [gensalt, _encode_salt, if_neg hne1, if_neg hne2]
  · simp [BCRYPT_VERSION]
  · rw [b64_encode_length, hlen]

theorem c9_witness :
    (List.replicate 16 0).length = 16 ∧
      ∃ s, gensalt (List.replicate 16 0) 50 = .ok s ∧
        s = ['$', '2', 'a', '$'] ++ zpad2 (min (max (50 : Int) 4) 31).toNat ++ ['$'] ++
          _b64_encode (List.replicate 16 0) ∧
        4 ≤ min (max (50 : Int) 4) 31 ∧ min (max (50 : Int) 4) 31 ≤ 31 ∧
        (zpad2 (min (max (50 : Int) 4) 31).toNat).length = 2 ∧
        pyInt (zpad2 (min (max (50 : Int) 4) 31).toNat) = some (min (max (50 : Int) 4) 31) ∧
        (_b64_encode (List.replicate 16 0)).length = 22 :=
  ⟨by decide, c9_gensalt_format (List.replicate 16 0) 50 (by decide)⟩

/-- Claim C2: with the computed key length, the key-schedule section of
`hashpw` with round count `1 <<< c` performs the initial expansion with the
raw salt and then exactly `2 ^ c` loop iterations, each calling `expandkey`
with no salt and the password first, then with no salt and the 16 raw salt
bytes, as witnessed by the complete `expandkey` call trace. -/
theorem c2_cost_loop (password raw_salt : List Nat) (minor : Char) (c : Nat) :
    bcrypt_setup traceBF [] password raw_salt
        (password.length + if 'a' ≤ minor then 1 else 0) (1 <<< c) =
      (some raw_salt, password, password.length + if 'a' ≤ minor then 1 else 0) ::
        loopTrace password raw_salt
          (password.length + if 'a' ≤ minor then 1 else 0) (2 ^ c) := by
  unfold bcrypt_setup
  rw [foldl_range_const (fun s => traceBF.expandkey (traceBF.expandkey s none password
    (password.length + if 'a' ≤ minor then 1 else 0)) none raw_salt BCRYPT_SALTLEN)]
  rw [bcrypt_setup_trace_aux]
  have h : (1 : Nat) <<< c = 2 ^ c := by rw [Nat.shiftLeft_eq, one_mul]
  rw [h]
  simp [traceBF]

/-- Claim C5: a salt whose parsed (major, minor) version tuple is strictly
greater than ('2', 'a') under lexicographic tuple comparison makes `hashpw`
raise the version error; a tuple less than or equal to ('2', 'a') is never
rejected on version grounds. -/
theorem c5_version_check {σ : Type} (bf : EksBlowfish σ) (init : σ)
    (password : List Nat) (salt f0 lr bs : List Char) (major minor : Char)
    (hsplit : splitDollar salt = [f0, [major, minor], lr, bs]) :
    (verGT (major, minor) ('2', 'a') →
      hashpw bf init password salt =
        .error "Newer hash version than library version. OMG.") ∧
    (¬ verGT (major, minor) ('2', 'a') →
      hashpw bf init password salt ≠
        .error "Newer hash version than library version. OMG.") := by
  constructor
  · intro hgt
    simp only [hashpw, hsplit, if_pos (show verGT (major, minor) BCRYPT_VERSION from hgt)]
  · intro hle
    simp only [hashpw, hsplit,
      if_neg (show ¬ verGT (major, minor) BCRYPT_VERSION from hle)]
    cases hpi : pyInt lr with
    | none => simp
    | some n =>
      by_cases h1 : n > 31 ∨ n < 0
      · simp only [if_pos h1]; simp
      · simp only [if_neg h1]
        by_cases h2 : 1 <<< n.toNat < BCRYPT_MINROUNDS
        · simp only [if_pos h2]; simp
        · simp only [if_neg h2]
          by_cases h3 : bs.length * 3 / 4 ≠ BCRYPT_SALTLEN
          · simp only [if_pos h3]; simp
          · simp only [if_neg h3]
            cases hdec : _b64_decode bs with
            | none => simp
            | some raw => simp

theorem c5_witness :
    (splitDollar "$3a$12$......................".toList =
      [[], ['3', 'a'], ['1', '2'],
        "......................".toList] ∧ verGT ('3', 'a') ('2', 'a')) ∧
      hashpw unitBF () [] "$3a$12$......................".toList =
        .error "Newer hash version than library version. OMG." :=
  ⟨⟨by decide, by decide⟩,
    (c5_version_check unitBF () [] "$3a$12$......................".toList
      [] ['1', '2'] "......................".toList '3' 'a' (by decide)).1 (by decide)⟩

/-- Claim C10: `hashpw` accepts only salt strings whose '$'-delimited version
field is exactly two characters: a one-character version field (like the
docstring's own "$2$04$..." example) or one of three or more characters makes
`hashpw` raise an error while unpacking the version, for every cipher. -/
theorem c10_version_field_two_chars {σ : Type} (bf : EksBlowfish σ) (init : σ)
    (password : List Nat) (salt f0 hv lr bs : List Char)
    (hsplit : splitDollar salt = [f0, hv, lr, bs]) (hlen : hv.length ≠ 2) :
    hashpw bf init password salt = .error "ValueError: unpack hash version" := by
  simp only [hashpw, hsplit]
  cases hv with
  | nil => rfl
  | cons a t =>
    cases t with
    | nil => rfl
    | cons b t2 =>
      cases t2 with
      | nil => simp at hlen
      | cons c t3 => rfl

theorem c10_witness :
    (splitDollar "$2$04$......................".toList =
      [[], ['2'], ['0', '4'], "......................".toList] ∧
      (['2'] : List Char).length ≠ 2) ∧
      hashpw unitBF () [] "$2$04$......................".toList =
        .error "ValueError: unpack hash version" :=
  ⟨⟨by decide, by decide⟩,
    c10_version_field_two_chars unitBF () [] "$2$04$......................".toList
      [] ['2'] ['0', '4'] "......................".toList (by decide) (by decide)⟩

/-- Claim C4: with the version check passed, `hashpw` raises the range error
when the parsed cost lies outside [0, 31], and otherwise raises the rounds
error when the derived round count `1 <<< cost` is below the minimum of 16;
both errors are raised for every cipher, i.e. before any key-schedule work. -/
theorem c4_cost_checks {σ : Type} (bf : EksBlowfish σ) (init : σ)
    (password : List Nat) (salt f0 lr bs : List Char) (major minor : Char) (n : Int)
    (hsplit : splitDollar salt = [f0, [major, minor], lr, bs])
    (hver : ¬ verGT (major, minor) ('2', 'a'))
    (hint : pyInt lr = some n) :
    ((n > 31 ∨ n < 0) →
      hashpw bf init password salt = .error "Number of rounds out of bounds.") ∧
    (¬ (n > 31 ∨ n < 0) → 1 <<< n.toNat < 16 →
      hashpw bf init password salt = .error "Minimum number of rounds is: 16") := by
  have hver' : ¬ verGT (major, minor) BCRYPT_VERSION := hver
  constructor
  · intro h1
    simp only [hashpw, hsplit, if_neg hver', hint, if_pos h1]
  · intro h1 h2
    simp only [hashpw, hsplit, if_neg hver', hint, if_neg h1,
      if_pos (show 1 <<< n.toNat < BCRYPT_MINROUNDS from h2)]

theorem c4_witness :
    (splitDollar "$2a$03$......................".toList =
      [[], ['2', 'a'], ['0', '3'], "......................".toList] ∧
      pyInt ['0', '3'] = some 3 ∧ ¬ ((3 : Int) > 31 ∨ (3 : Int) < 0) ∧
      1 <<< (3 : Int).toNat < 16) ∧
      hashpw unitBF () [] "$2a$03$......................".toList =
        .error "Minimum number of rounds is: 16" :=
  ⟨⟨by decide, by decide, by decide, by decide⟩,
    (c4_cost_checks unitBF () [] "$2a$03$......................".toList
      [] ['0', '3'] "......................".toList '2' 'a' 3
      (by decide) (by decide) (by decide)).2 (by decide) (by decide)⟩

/-- Claim C6 as amended: for a salt field drawn from the bcrypt alphabet,
once the version and cost checks pass, `hashpw` fails with the salt-length
error exactly when the salt field does not decode to 16 raw bytes — and in
the failing case it does so for every cipher, i.e. without any key-schedule
computation.  (The unamended claim is refuted by `c6_counterexample`:
characters outside the alphabet are silently skipped by the decoder, so a
22-character field can decode to fewer than 16 bytes and still be hashed.) -/
theorem c6_salt_length {σ : Type} (bf : EksBlowfish σ) (init : σ)
    (password : List Nat) (salt f0 lr bs : List Char) (major minor : Char) (n : Int)
    (hsplit : splitDollar salt = [f0, [major, minor], lr, bs])
    (hver : ¬ verGT (major, minor) ('2', 'a'))
    (hint : pyInt lr = some n) (h0 : 0 ≤ n) (h31 : n ≤ 31)
    (hmin : 16 ≤ 1 <<< n.toNat)
    (halpha : ∀ c ∈ bs, c ∈ B64_CHARS_BCRYPT) :
    ((¬ ∃ raw, _b64_decode bs = some raw ∧ raw.length = 16) →
      hashpw bf init password salt = .error "Salt has invalid length.") ∧
    ((∃ raw, _b64_decode bs = some raw ∧ raw.length = 16) →
      hashpw bf init password salt ≠ .error "Salt has invalid length.") := by
  have hver' : ¬ verGT (major, minor) BCRYPT_VERSION := hver
  have hiff := b64_decode_bcrypt_16 bs halpha
  have hBS : BCRYPT_SALTLEN = 16 := rfl
  constructor
  · intro hno
    have h22 : bs.length ≠ 22 := fun h => hno (hiff.mpr h)
    have hc1 : ¬ (n > 31 ∨ n < 0) := by omega
    have hc2 : ¬ (1 <<< n.toNat < BCRYPT_MINROUNDS) := by
      show ¬ (1 <<< n.toNat < 16); omega
    have hlen : bs.length * 3 / 4 ≠ BCRYPT_SALTLEN := by omega
    simp only [hashpw, hsplit, if_neg hver', hint, if_neg hc1, if_neg hc2, if_pos hlen]
  · intro hyes
    obtain ⟨raw, hdec, h16⟩ := hyes
    have h22 : bs.length = 22 := hiff.mp ⟨raw, hdec, h16⟩
    have hlen : bs.length * 3 / 4 = BCRYPT_SALTLEN := by omega
    rw [hashpw_valid_eq bf init password salt f0 lr bs major minor n raw
      hsplit hver' hint h0 h31 (show BCRYPT_MINROUNDS ≤ 1 <<< n.toNat from hmin) hlen hdec]
    simp

theorem c6_witness :
    (splitDollar "$2a$05$......................".toList =
      [[], ['2', 'a'], ['0', '5'], "......................".toList] ∧
      pyInt ['0', '5'] = some 5 ∧ (16 : Nat) ≤ 1 <<< (5 : Int).toNat ∧
      (∀ c ∈ "......................".toList, c ∈ B64_CHARS_BCRYPT)) ∧
      ((¬ ∃ raw, _b64_decode "......................".toList = some raw ∧
          raw.length = 16) →
        hashpw unitBF () [] "$2a$05$......................".toList =
          .error "Salt has invalid length.") ∧
      ((∃ raw, _b64_decode "......................".toList = some raw ∧
          raw.length = 16) →
        hashpw unitBF () [] "$2a$05$......................".toList ≠
          .error "Salt has invalid length.") :=
  ⟨⟨by decide, by decide, by decide, by decide⟩,
    c6_salt_length unitBF () [] "$2a$05$......................".toList
      [] ['0', '5'] "......................".toList '2' 'a' 5
      (by decide) (by decide) (by decide) (by decide) (by decide) (by decide) (by decide)⟩

/-- Claim C6, counterexample to the unamended claim: the salt field
"....................!!" (20 dots and two characters outside the bcrypt
alphabet) passes every check of `hashpw` — the encoded-length pre-check sees
22 characters — while the decoder, like Python 2's `binascii.a2b_base64`,
silently skips the two invalid characters and yields only 15 raw salt bytes;
`hashpw` then runs the full key schedule on that 15-byte salt and returns a
hash instead of raising the salt-length error. -/
theorem c6_counterexample :
    _b64_decode "....................!!".toList = some (List.replicate 15 0) ∧
    (List.replicate 15 0).length ≠ 16 ∧
    hashpw unitBF () [] "$2a$05$....................!!".toList =
      .ok (bcrypt_hash unitBF
        (bcrypt_setup unitBF () [] (List.replicate 15 0) 1 32)
        "$2a$05$....................!!".toList) :=
  ⟨by decide, by decide, by rfl⟩

/-- Claim C3: the key length `hashpw` passes to the key schedule is
`len(password) + 1` when the parsed minor revision is at least 'a' and
`len(password)` otherwise, so the same password hashes through different key
lengths under the two families of minor revisions. -/
theorem c3_key_length {σ : Type} (bf : EksBlowfish σ) (init : σ)
    (password : List Nat) (salt f0 lr bs : List Char) (major minor : Char)
    (n : Int) (raw : List Nat)
    (hsplit : splitDollar salt = [f0, [major, minor], lr, bs])
    (hver : ¬ verGT (major, minor) ('2', 'a'))
    (hint : pyInt lr = some n) (h0 : 0 ≤ n) (h31 : n ≤ 31)
    (hmin : 16 ≤ 1 <<< n.toNat)
    (hlen : bs.length * 3 / 4 = 16)
    (hdec : _b64_decode bs = some raw) :
    ('a' ≤ minor →
      hashpw bf init password salt = .ok (bcrypt_hash bf
        (bcrypt_setup bf init password raw (password.length + 1) (1 <<< n.toNat)) salt)) ∧
    (minor < 'a' →
      hashpw bf init password salt = .ok (bcrypt_hash bf
        (bcrypt_setup bf init password raw password.length (1 <<< n.toNat)) salt)) := by
  have heq := hashpw_valid_eq bf init password salt f0 lr bs major minor n raw
    hsplit hver hint h0 h31 (show BCRYPT_MINROUNDS ≤ 1 <<< n.toNat from hmin)
    (show bs.length * 3 / 4 = BCRYPT_SALTLEN from hlen) hdec
  constructor
  · intro hm
    rw [heq, if_pos hm]
  · intro hm
    rw [heq, if_neg (not_le.mpr hm), Nat.add_zero]

theorem c3_witness :
    (splitDollar "$2a$04$......................".toList =
      [[], ['2', 'a'], ['0', '4'], "......................".toList] ∧
      _b64_decode "......................".toList = some (List.replicate 16 0) ∧
      'a' ≤ 'a') ∧
      hashpw unitBF () [97, 98, 99] "$2a$04$......................".toList =
        .ok (bcrypt_hash unitBF
          (bcrypt_setup unitBF () [97, 98, 99] (List.replicate 16 0)
            ([97, 98, 99].length + 1) (1 <<< (4 : Int).toNat))
          "$2a$04$......................".toList) :=
  ⟨⟨by decide, by decide, by decide⟩,
    (c3_key_length unitBF () [97, 98, 99] "$2a$04$......................".toList
      [] ['0', '4'] "......................".toList '2' 'a' 4 (List.replicate 16 0)
      (by decide) (by decide) (by decide) (by decide) (by decide) (by decide)
      (by decide) (by decide)).1 (by decide)⟩

/-- Claim C1: on a valid salt, `hashpw` encrypts the 24-byte magic plaintext
as three big-endian 64-bit blocks, re-encrypting each block 64 times through
the cipher, truncates the final byte of the serialized 24-byte result,
bcrypt-base64-encodes the remaining 23 bytes into 31 characters, and returns
the salt argument verbatim immediately followed by those 31 characters. -/
theorem c1_hashpw_digest {σ : Type} (bf : EksBlowfish σ) (init : σ)
    (password : List Nat) (salt f0 lr bs : List Char) (major minor : Char)
    (n : Int) (raw : List Nat)
    (hsplit : splitDollar salt = [f0, [major, minor], lr, bs])
    (hver : ¬ verGT (major, minor) ('2', 'a'))
    (hint : pyInt lr = some n) (h0 : 0 ≤ n) (h31 : n ≤ 31)
    (hmin : 16 ≤ 1 <<< n.toNat)
    (hlen : bs.length * 3 / 4 = 16)
    (hdec : _b64_decode bs = some raw) :
    hashpw bf init password salt = .ok (salt ++ bcryptDigestSpec bf
        (bcrypt_setup bf init password raw
          (password.length + if 'a' ≤ minor then 1 else 0) (1 <<< n.toNat))) ∧
    (bcryptDigestSpec bf (bcrypt_setup bf init password raw
        (password.length + if 'a' ≤ minor then 1 else 0) (1 <<< n.toNat))).length = 31 := by
  obtain ⟨a, b, c, d, e, f, hws⟩ : ∃ a b c d e f,
      unpackBE32 (BCRYPT_MAGICTEXT.map Char.toNat) = [a, b, c, d, e, f] :=
    ⟨_, _, _, _, _, _, rfl⟩
  constructor
  · rw [hashpw_valid_eq bf init password salt f0 lr bs major minor n raw
      hsplit hver hint h0 h31 (show BCRYPT_MINROUNDS ≤ 1 <<< n.toNat from hmin)
      (show bs.length * 3 / 4 = BCRYPT_SALTLEN from hlen) hdec]
    unfold bcrypt_hash bcryptDigestSpec
    rw [hws,
      foldl_range_const (fun ct => encryptPairs bf
        (bcrypt_setup bf init password raw
          (password.length + if 'a' ≤ minor then 1 else 0) (1 <<< n.toNat)) ct),
      iterate_encryptPairs_six]
    simp [pairUp, unpair]
  · unfold bcryptDigestSpec
    rw [hws]
    have h6 : (unpair ((pairUp [a, b, c, d, e, f]).map
        fun p => (cipherPair bf (bcrypt_setup bf init password raw
          (password.length + if 'a' ≤ minor then 1 else 0) (1 <<< n.toNat)))^[64] p)).length
        = 6 := by
      simp [pairUp, unpair]
    rw [b64_encode_length, List.length_dropLast, packBE32_length, h6]

theorem c1_witness :
    (splitDollar "$2a$04$......................".toList =
      [[], ['2', 'a'], ['0', '4'], "......................".toList] ∧
      pyInt ['0', '4'] = some 4 ∧
      _b64_decode "......................".toList = some (List.replicate 16 0)) ∧
      hashpw unitBF () [] "$2a$04$......................".toList =
        .ok ("$2a$04$......................".toList ++ bcryptDigestSpec unitBF
          (bcrypt_setup unitBF () [] (List.replicate 16 0)
            (([] : List Nat).length + if 'a' ≤ 'a' then 1 else 0) (1 <<< (4 : Int).toNat))) ∧
      (bcryptDigestSpec unitBF (bcrypt_setup unitBF () [] (List.replicate 16 0)
          (([] : List Nat).length + if 'a' ≤ 'a' then 1 else 0) (1 <<< (4 : Int).toNat))).length = 31 :=
  ⟨⟨by decide, by decide, by decide⟩,
    c1_hashpw_digest unitBF () [] "$2a$04$......................".toList
      [] ['0', '4'] "......................".toList '2' 'a' 4 (List.replicate 16 0)
      (by decide) (by decide) (by decide) (by decide) (by decide) (by decide)
      (by decide) (by decide)⟩
